import Mathlib

/-!
Verification of the compiled-object projection and lazy-value layer
(`jedi/inference/compiled/value.py` and `jedi/inference/lazy_value.py`).

Access handles are identified by numeric ids.  An access path is the ordered
list of `(name, handle)` pairs exposed by `AccessPath.accesses`.  Compiled
objects are identified by the numeric ids allocated by the creation cache.
-/

abbrev AccessStep := String × Nat

/-- State of the per-inference-state creation cache
(`infer_state_function_cache` wrapped around `create_cached_compiled_object`):
each entry maps a `(access_handle, parent_value)` key to the id of the
`CompiledObject` allocated for that key; `nextId` is the next fresh id. -/
structure CacheState where
  cache : List ((Nat × Option Nat) × Nat)
  nextId : Nat
deriving DecidableEq

/-- `create_cached_compiled_object(infer_state, access_handle, parent_value)`:
look the key up in the inference-state cache; on a miss allocate a fresh
`CompiledObject` and remember it. -/
def create_cached_compiled_object (s : CacheState) (h : Nat) (p : Option Nat) :
    Nat × CacheState :=
  match s.cache.find? (fun e => decide (e.1 = (h, p))) with
  | some e => (e.2, s)
  | none => (s.nextId, ⟨((h, p), s.nextId) :: s.cache, s.nextId + 1⟩)

/-- The loop body of `create_from_access_path`: fold the steps of the path
left to right, each created object becoming the next step's parent.  The
`name` component of each step is not consulted. -/
def create_from_access_path_aux (s : CacheState) (p : Option Nat) :
    List AccessStep → Option Nat × CacheState
  | [] => (p, s)
  | step :: rest =>
      let r := create_cached_compiled_object s step.2 p
      create_from_access_path_aux r.2 (some r.1) rest

/-- `create_from_access_path(infer_state, access_path)`: start from parent
`None` and fold every access of the path through the creation cache. -/
def create_from_access_path (s : CacheState) (ap : List AccessStep) :
    Option Nat × CacheState :=
  create_from_access_path_aux s none ap

/-- Cache keys are functional: no key maps to two ids. -/
def keyFun (s : CacheState) : Prop :=
  ∀ e ∈ s.cache, ∀ e' ∈ s.cache, e.1 = e'.1 → e.2 = e'.2

/-- Allocated ids are unique: no id is stored under two keys. -/
def idInj (s : CacheState) : Prop :=
  ∀ e ∈ s.cache, ∀ e' ∈ s.cache, e.2 = e'.2 → e.1 = e'.1

/-- Every stored id is below the allocation counter. -/
def idBound (s : CacheState) : Prop :=
  ∀ e ∈ s.cache, e.2 < s.nextId

/-- Well-formedness of the creation cache. -/
def CacheInv (s : CacheState) : Prop :=
  keyFun s ∧ idInj s ∧ idBound s

/-- The cache is append-only: `CacheLe s s'` says every entry of `s` is
still present in `s'`. -/
def CacheLe (s s' : CacheState) : Prop :=
  ∀ e ∈ s.cache, e ∈ s'.cache

/-- The empty cache of a fresh inference-state. -/
def emptyCache : CacheState := ⟨[], 0⟩

theorem cacheLe_refl (s : CacheState) : CacheLe s s := fun _ he => he

theorem cacheLe_trans {s s' s'' : CacheState} (h : CacheLe s s')
    (h' : CacheLe s' s'') : CacheLe s s'' := fun e he => h' e (h e he)

theorem emptyCache_inv : CacheInv emptyCache :=
  ⟨fun e he => absurd he (List.not_mem_nil e),
   fun e he => absurd he (List.not_mem_nil e),
   fun e he => absurd he (List.not_mem_nil e)⟩

theorem cco_cacheLe (s : CacheState) (h : Nat) (p : Option Nat) :
    CacheLe s (create_cached_compiled_object s h p).2 := by
  unfold create_cached_compiled_object
  cases hf : s.cache.find? (fun e => decide (e.1 = (h, p))) with
  | some e => exact fun e' he' => he'
  | none => exact fun e' he' => List.mem_cons_of_mem _ he'

theorem cco_mem (s : CacheState) (h : Nat) (p : Option Nat) :
    ((h, p), (create_cached_compiled_object s h p).1)
      ∈ (create_cached_compiled_object s h p).2.cache := by
  unfold create_cached_compiled_object
  cases hf : s.cache.find? (fun e => decide (e.1 = (h, p))) with
  | some e =>
      have hmem := List.mem_of_find?_eq_some hf
      have hkeyb := List.find?_some hf
      have hkey : e.1 = (h, p) := by simpa using hkeyb
      simpa [← hkey] using hmem
  | none => exact List.mem_cons_self _ _

theorem cco_of_mem {s : CacheState} {h : Nat} {p : Option Nat} {o : Nat}
    (hfun : keyFun s) (hmem : ((h, p), o) ∈ s.cache) :
    create_cached_compiled_object s h p = (o, s) := by
  unfold create_cached_compiled_object
  cases hf : s.cache.find? (fun e => decide (e.1 = (h, p))) with
  | some e =>
      have hmem' := List.mem_of_find?_eq_some hf
      have hkeyb := List.find?_some hf
      have hkey : e.1 = (h, p) := by simpa using hkeyb
      have := hfun e hmem' ((h, p), o) hmem (by simpa using hkey)
      simp [this]
  | none =>
      have := List.find?_eq_none.mp hf _ hmem
      simp at this

theorem cco_inv {s : CacheState} (hinv : CacheInv s) (h : Nat) (p : Option Nat) :
    CacheInv (create_cached_compiled_object s h p).2 := by
  obtain ⟨hfun, hinj, hbd⟩ := hinv
  unfold create_cached_compiled_object
  cases hf : s.cache.find? (fun e => decide (e.1 = (h, p))) with
  | some e => exact ⟨hfun, hinj, hbd⟩
  | none =>
      have hfresh : ∀ e ∈ s.cache, e.1 ≠ (h, p) := by
        intro e he
        have := List.find?_eq_none.mp hf _ he
        simpa using this
      refine ⟨?_, ?_, ?_⟩
      · intro e he e' he'
        rcases List.mem_cons.mp he with rfl | he
        · rcases List.mem_cons.mp he' with rfl | he'
          · intro _; rfl
          · intro hk; exact absurd hk.symm (hfresh _ he')
        · rcases List.mem_cons.mp he' with rfl | he'
          · intro hk; exact absurd hk (hfresh _ he)
          · exact hfun e he e' he'
      · intro e he e' he'
        rcases List.mem_cons.mp he with rfl | he
        · rcases List.mem_cons.mp he' with rfl | he'
          · intro _; rfl
          · intro hk
            exact absurd hk.symm (Nat.ne_of_lt (hbd e' he'))
        · rcases List.mem_cons.mp he' with rfl | he'
          · intro hk
            exact absurd hk (Nat.ne_of_lt (hbd e he))
          · exact hinj e he e' he'
      · intro e he
        rcases List.mem_cons.mp he with rfl | he
        · exact Nat.lt_succ_self _
        · exact Nat.lt_succ_of_lt (hbd e he)

theorem cfap_aux_cacheLe (l : List AccessStep) :
    ∀ (s : CacheState) (p : Option Nat),
      CacheLe s (create_from_access_path_aux s p l).2 := by
  induction l with
  | nil => intro s p; exact cacheLe_refl s
  | cons step rest ih =>
      intro s p
      exact cacheLe_trans (cco_cacheLe s step.2 p) (ih _ _)

theorem cfap_aux_inv (l : List AccessStep) :
    ∀ (s : CacheState) (p : Option Nat), CacheInv s →
      CacheInv (create_from_access_path_aux s p l).2 := by
  induction l with
  | nil => intro s p hs; exact hs
  | cons step rest ih =>
      intro s p hs
      exact ih _ _ (cco_inv hs step.2 p)

/-- `ChainOf s p hs` says the cache `s` already records `p` as the object
reached by folding the handle sequence `hs.reverse` through the creation
cache from parent `None` (the list is kept most-recent-handle-first so that
it is constructor-shaped for induction). -/
inductive ChainOf (s : CacheState) : Option Nat → List Nat → Prop
  | nil : ChainOf s none []
  | cons {p : Option Nat} {o : Nat} {hs : List Nat} {h : Nat} :
      ChainOf s p hs → ((h, p), o) ∈ s.cache → ChainOf s (some o) (h :: hs)

theorem chainOf_mono {s s' : CacheState} (hle : CacheLe s s') :
    ∀ {p : Option Nat} {hs : List Nat}, ChainOf s p hs → ChainOf s' p hs := by
  intro p hs hc
  induction hc with
  | nil => exact ChainOf.nil
  | cons hc hmem ih => exact ChainOf.cons ih (hle _ hmem)

theorem chainOf_fun {s : CacheState} (hinv : CacheInv s) :
    ∀ {p : Option Nat} {hs : List Nat}, ChainOf s p hs →
      ∀ {p' : Option Nat}, ChainOf s p' hs → p = p' := by
  intro p hs hc
  induction hc with
  | nil =>
      intro p' hc'
      cases hc' with
      | nil => rfl
  | @cons q o hs h hc hmem ih =>
      intro p' hc'
      cases hc' with
      | @cons q' o' _ _ hc'' hmem' =>
          have hq : q = q' := ih hc''
          subst hq
          have : o = o' := hinv.1 _ hmem _ hmem' rfl
          simp [this]

theorem chainOf_list_inj {s : CacheState} (hinv : CacheInv s) :
    ∀ {p : Option Nat} {hs : List Nat}, ChainOf s p hs →
      ∀ {hs' : List Nat}, ChainOf s p hs' → hs = hs' := by
  intro p hs hc
  induction hc with
  | nil =>
      intro hs' hc'
      cases hc' with
      | nil => rfl
  | @cons q o hs h hc hmem ih =>
      intro hs' hc'
      cases hc' with
      | @cons q' o' hs'' h' hc'' hmem' =>
          have hkey : (h, q) = (h', q') := hinv.2.1 _ hmem _ hmem' rfl
          have hh : h = h' := congrArg Prod.fst hkey
          have hq : q = q' := congrArg Prod.snd hkey
          subst hh
          subst hq
          have := ih hc''
          simp [this]

theorem cfap_aux_chain (l : List AccessStep) :
    ∀ (s : CacheState) (p : Option Nat) (hs : List Nat), CacheInv s →
      ChainOf s p hs →
      ChainOf (create_from_access_path_aux s p l).2
        (create_from_access_path_aux s p l).1
        ((l.map Prod.snd).reverse ++ hs) := by
  induction l with
  | nil =>
      intro s p hs _ hc
      simpa [create_from_access_path_aux] using hc
  | cons step rest ih =>
      intro s p hs hinv hc
      have hle := cco_cacheLe s step.2 p
      have hc1 : ChainOf (create_cached_compiled_object s step.2 p).2 p hs :=
        chainOf_mono hle hc
      have hmem := cco_mem s step.2 p
      have hc2 := ChainOf.cons hc1 hmem
      have hinv1 := cco_inv hinv step.2 p
      have := ih (create_cached_compiled_object s step.2 p).2
        (some (create_cached_compiled_object s step.2 p).1) (step.2 :: hs) hinv1 hc2
      simpa [create_from_access_path_aux, List.append_assoc] using this

/-- C1 (amended): for a fixed inference-state, two sequential constructions
through `create_from_access_path` yield the same object id exactly when the
two paths carry the same sequence of access handles; the `name` components
of the paths are never consulted by the cache key. -/
theorem create_from_access_path_identity (s : CacheState) (hinv : CacheInv s)
    (p1 p2 : List AccessStep) :
    (create_from_access_path s p1).1
        = (create_from_access_path (create_from_access_path s p1).2 p2).1
      ↔ p1.map Prod.snd = p2.map Prod.snd := by
  have hchain1 : ChainOf (create_from_access_path s p1).2
      (create_from_access_path s p1).1 (p1.map Prod.snd).reverse := by
    simpa using cfap_aux_chain p1 s none [] hinv ChainOf.nil
  have hinv1 : CacheInv (create_from_access_path s p1).2 :=
    cfap_aux_inv p1 s none hinv
  have hchain2 : ChainOf (create_from_access_path (create_from_access_path s p1).2 p2).2
      (create_from_access_path (create_from_access_path s p1).2 p2).1
      (p2.map Prod.snd).reverse := by
    simpa using cfap_aux_chain p2 (create_from_access_path s p1).2 none [] hinv1 ChainOf.nil
  have hinv2 : CacheInv (create_from_access_path (create_from_access_path s p1).2 p2).2 :=
    cfap_aux_inv p2 _ none hinv1
  have hle : CacheLe (create_from_access_path s p1).2
      (create_from_access_path (create_from_access_path s p1).2 p2).2 :=
    cfap_aux_cacheLe p2 _ none
  have hchain1' := chainOf_mono hle hchain1
  constructor
  · intro heq
    rw [heq] at hchain1'
    have := chainOf_list_inj hinv2 hchain1' hchain2
    exact List.reverse_injective this
  · intro heq
    rw [heq] at hchain1'
    exact chainOf_fun hinv2 hchain1' hchain2

/-- C1 witness: concrete run of the identity theorem on the empty cache with
two paths sharing the handle sequence `[0, 1]` but not the names. -/
theorem create_from_access_path_identity_witness :
    CacheInv emptyCache ∧
      (create_from_access_path emptyCache [("a", 0), ("c", 1)]).1
        = (create_from_access_path
            (create_from_access_path emptyCache [("a", 0), ("c", 1)]).2
            [("b", 0), ("c", 1)]).1 :=
  ⟨emptyCache_inv,
   (create_from_access_path_identity emptyCache emptyCache_inv
      [("a", 0), ("c", 1)] [("b", 0), ("c", 1)]).mpr (by decide)⟩

/-- C1 counterexample to the claim as stated: the access paths
`[("a", 0)]` and `[("b", 0)]` are unequal (their names differ), yet the
second construction returns the same object instance as the first, because
the cache key ignores the name components. -/
theorem create_from_access_path_name_blind :
    ([("a", 0)] : List AccessStep) ≠ [("b", 0)] ∧
      (create_from_access_path emptyCache [("a", 0)]).1
        = (create_from_access_path
            (create_from_access_path emptyCache [("a", 0)]).2 [("b", 0)]).1 := by
  constructor
  · decide
  · decide

/-!
Documentation parser `_parse_function_doc` (`value.py`, lines 449-507).

Strings are processed as `List Char`; regular expressions of the source are
embedded as the deterministic scanners they denote on the fixed patterns.
-/

/-- `doc.index('(')`: index of the first opening parenthesis, if any. -/
def findOpen (dl : List Char) : Option Nat :=
  List.findIdx? (fun c => c == '(') dl

/-- The depth-counting scan over `doc[start:]`: after each character update
the open-parenthesis count and stop at the first index where it is zero
(the matching closing parenthesis).  `none` models the `UnboundLocalError`
of the source when the count never returns to zero. -/
def findClose : List Char → Int → Nat → Option Nat
  | [], _, _ => none
  | c :: rest, count, i =>
      let count' := if c == '(' then count + 1 else if c == ')' then count - 1 else count
      if count' = 0 then some i else findClose rest count' (i + 1)

/-- Python `str.strip` whitespace. -/
def isPySpace (c : Char) : Bool :=
  c == ' ' || c == '\t' || c == '\n' || c == '\r' || c == '\x0b' || c == '\x0c'

def pyStrip (l : List Char) : List Char :=
  (((l.dropWhile isPySpace).reverse).dropWhile isPySpace).reverse

/-- Length of the maximal run of characters of the class `[>-]`. -/
def arrowRun : List Char → Nat
  | [] => 0
  | c :: rest => if c == '>' || c == '-' then 1 + arrowRun rest else 0

/-- Match of the regex `-[>-]* ` anchored at the head of the list: returns
the length of the match.  Backtracking never helps on this pattern because
a space is not in the class `[>-]`, so the run is the maximal one. -/
def matchArrowAt : List Char → Option Nat
  | '-' :: rest =>
      let k := arrowRun rest
      if (rest.drop k).head? = some ' ' then some (1 + k + 1) else none
  | _ => none

/-- `re.search('-[>-]* ', w)`: end offset (`r.end()`) of the leftmost match
of the arrow marker in `w`, if any. -/
def searchArrow : List Char → Option Nat
  | [] => none
  | c :: rest =>
      match matchArrowAt (c :: rest) with
      | some len => some len
      | none => (searchArrow rest).map (· + 1)

/-- Length of the maximal match of `(,\n|[^\n-])+` anchored at the head
(0 when the pattern does not match at all). -/
def retRun : List Char → Nat
  | [] => 0
  | ',' :: '\n' :: rest => 2 + retRun rest
  | c :: rest => if c ≠ '\n' ∧ c ≠ '-' then 1 + retRun rest else 0

/-- `re.sub(r'[nN]ew (.*)', r'\x7b1}()', s)`: rewrite every `New X` line
suffix to `X()`.  Structural recursion on a fuel argument so the function
reduces in the kernel; every step consumes one fuel and at least one
character, so any fuel of at least the list length gives the fixpoint and
the zero-fuel arm is never reached by the callers below. -/
def subNew : Nat → List Char → List Char
  | _, [] => []
  | 0, l => l
  | fuel + 1, c :: rest =>
      if (c == 'n' || c == 'N') && rest.take 3 == ['e', 'w', ' '] then
        let after := rest.drop 3
        let line := after.takeWhile (fun ch => ch != '\n')
        line ++ ['(', ')'] ++ subNew fuel (after.dropWhile (fun ch => ch != '\n'))
      else
        c :: subNew fuel rest

/-- Python `str.split(',')` (always at least one piece). -/
def splitCommaAux : List Char → List Char → List (List Char)
  | [], acc => [acc.reverse]
  | ',' :: rest, acc => acc.reverse :: splitCommaAux rest []
  | c :: rest, acc => splitCommaAux rest (c :: acc)

def pySplitComma (l : List Char) : List (List Char) :=
  splitCommaAux l []

def joinComma : List (List Char) → List Char
  | [] => []
  | [x] => x
  | x :: xs => x ++ ',' :: joinComma xs

/-- `change_options`: every nonempty comma-piece of the optional group not
already holding `=` gets `=None` appended. -/
def changeOptions (grp : List Char) : List Char :=
  joinComma ((pySplitComma grp).map (fun a =>
    if a ≠ [] ∧ ¬ ('=' ∈ a) then a ++ ['=', 'N', 'o', 'n', 'e'] else a))

/-- Match of `\[([^\[\]]+)\]` anchored at the head: the captured group and
the number of characters consumed. -/
def matchBracketAt : List Char → Option (List Char × Nat)
  | [] => none
  | c :: rest =>
      if c = '[' then
        let grp := rest.takeWhile (fun ch => ch != '[' && ch != ']')
        let after := rest.drop grp.length
        if grp ≠ [] ∧ after.head? = some ']' then some (grp, grp.length + 2) else none
      else none

/-- One pass of `re.subn(r' ?\[([^\[\]]+)\]', change_options, s)`: the
rewritten string together with the number of replacements.  Structural
recursion on fuel; every step consumes one fuel and at least one
character, so any fuel of at least the list length computes the pass in
full and the zero-fuel arm is never reached by the callers below. -/
def subnAux : Nat → List Char → List Char × Nat
  | _, [] => ([], 0)
  | 0, l => (l, 0)
  | fuel + 1, ' ' :: rest =>
      match matchBracketAt rest with
      | some (grp, k) =>
          let r := subnAux fuel (rest.drop k)
          (changeOptions grp ++ r.1, r.2 + 1)
      | none =>
          let r := subnAux fuel rest
          (' ' :: r.1, r.2)
  | fuel + 1, c :: rest =>
      match matchBracketAt (c :: rest) with
      | some (grp, k) =>
          let r := subnAux fuel ((c :: rest).drop k)
          (changeOptions grp ++ r.1, r.2 + 1)
      | none =>
          let r := subnAux fuel rest
          (c :: r.1, r.2)

/-- The `while True` loop around `re.subn`; the fuel passed by the caller
(one more than the length, hence more than the count of `[` characters)
strictly exceeds the possible number of iterations, since every pass with
a change removes at least one `[`. -/
def bracketLoop : Nat → List Char → List Char
  | 0, s => s
  | fuel + 1, s =>
      let r := subnAux s.length s
      if r.2 = 0 then r.1 else bracketLoop fuel r.1

def docstr_defaults : List (String × String) :=
  [("floating point number", "float"), ("character", "str"), ("integer", "int"),
   ("dictionary", "dict"), ("string", "str")]

def lookupDefault (k : String) : String :=
  ((docstr_defaults.find? (fun e => e.1 == k)).map Prod.snd).getD k

/-- The parameter-extraction half of `_parse_function_doc`: the offset
`end` of the closing parenthesis (0 when no balanced group is found, as in
the `except` branch) and the bracket-rewritten parameter characters. -/
def parse_params (dl : List Char) : Nat × List Char :=
  match findOpen dl with
  | none => (0, [])
  | some start =>
      match findClose (dl.drop start) 0 0 with
      | none => (0, [])
      | some i =>
          let e := start + i
          let raw := (dl.drop (start + 1)).take (e - (start + 1))
          (e, bracketLoop (raw.length + 1) raw)

/-- `_parse_function_doc(doc)`: parameter string and return string.  `none`
models the uncaught `AttributeError` the source raises when the arrow
marker is found but `(,\n|[^\n-])+` fails to match at the return offset
(`pattern.match(doc, index)` is `None` and `.group(0)` blows up). -/
def parse_function_doc (doc : String) : Option (String × String) :=
  let dl := doc.toList
  let se := parse_params dl
  let param_str := se.2.map (fun c => if c == '-' then '_' else c)
  match searchArrow ((dl.drop se.1).take 7) with
  | none => some (String.mk param_str, "")
  | some rend =>
      let index := se.1 + rend
      let k := retRun (dl.drop index)
      if k = 0 then none
      else
        let ret0 := pyStrip ((dl.drop index).take k)
        let ret1 := subNew ret0.length ret0
        some (String.mk param_str, lookupDefault (String.mk ret1))

/-- No balanced parenthesis group: either no `(` at all, or the depth scan
never returns to zero. -/
def noBalancedGroupB (doc : String) : Bool :=
  match findOpen doc.toList with
  | none => true
  | some st => (findClose (doc.toList.drop st) 0 0).isNone

theorem parse_params_of_no_group {doc : String}
    (hg : noBalancedGroupB doc = true) : parse_params doc.toList = (0, []) := by
  unfold noBalancedGroupB at hg
  unfold parse_params
  cases hfo : findOpen doc.toList with
  | none => rfl
  | some st =>
      rw [hfo] at hg
      simp only [Option.isNone_iff_eq_none] at hg
      simp only [String.toList] at hg
      simp [hg]

/-- C8 (amended): on a doc string with no balanced parenthesis group the
parser always produces an empty parameter string, and when additionally no
arrow marker `-[>-]* ` occurs within the first seven characters it returns
exactly `("", "")` without failing.  (When an arrow marker does occur
there, the source parses a return description starting at offset 0, so the
return string need not be empty — see the counterexample.) -/
theorem parse_function_doc_no_group (doc : String)
    (hg : noBalancedGroupB doc = true) :
    (∀ pr, parse_function_doc doc = some pr → pr.1 = "") ∧
      (searchArrow (doc.toList.take 7) = none →
        parse_function_doc doc = some ("", "")) := by
  have hpp := parse_params_of_no_group hg
  constructor
  · intro pr hpr
    unfold parse_function_doc at hpr
    simp only [hpp, List.map_nil, List.drop_zero, Nat.zero_add] at hpr
    cases hsa : searchArrow (doc.toList.take 7) with
    | none =>
        rw [hsa] at hpr
        simp only [] at hpr
        have h1 := Option.some.inj hpr
        rw [← h1]
    | some rend =>
        rw [hsa] at hpr
        simp only [] at hpr
        by_cases hk : retRun (doc.toList.drop rend) = 0
        · rw [if_pos hk] at hpr
          exact Option.noConfusion hpr
        · rw [if_neg hk] at hpr
          have h1 := Option.some.inj hpr
          rw [← h1]
  · intro ha
    unfold parse_function_doc
    simp only [hpp, List.map_nil, List.drop_zero, Nat.zero_add, ha]

/-- C8 witness: the doc string "((x" has no balanced parenthesis group and
no arrow marker among its first seven characters, so the parser returns
exactly `("", "")`. -/
theorem parse_function_doc_no_group_witness :
    noBalancedGroupB "((x" = true ∧ parse_function_doc "((x" = some ("", "") :=
  ⟨by decide, (parse_function_doc_no_group "((x" (by decide)).2 (by decide)⟩

/-- C8 counterexample to the claim as stated: the doc string "-> int"
contains no balanced parenthesis group, yet the parser returns the
non-empty return string "int", because the arrow search runs over the
first seven characters when no group is found. -/
theorem parse_function_doc_no_group_cex :
    noBalancedGroupB "-> int" = true ∧
      parse_function_doc "-> int" = some ("", "int") ∧
      ("int" : String) ≠ "" :=
  ⟨by decide, by decide, by decide⟩

/-- C9: the doc string "foo(a, [b]) -> str" parses to the parameter string
"a,b=None" (the top-level optional bracket is stripped and the bare
optional rewritten to name=None form) and the return string "str". -/
theorem parse_function_doc_bracket_example :
    parse_function_doc "foo(a, [b]) -> str" = some ("a,b=None", "str") := by
  decide

/-!
CompiledObjectFilter and its Name objects (`value.py`, lines 361-437).
The inference-state settings and the external resolver behind
`CompiledName.infer` are abstracted as parameters.
-/

/-- The two kinds of names the filter produces: `EmptyCompiledName` (infers
to nothing) and a real `CompiledName`, each carrying its string name. -/
inductive FilterName
  | empty (name : String)
  | compiled (name : String)
deriving DecidableEq

def FilterName.string_name : FilterName → String
  | .empty n => n
  | .compiled n => n

/-- `infer` of the two name kinds: `EmptyCompiledName.infer` is literally
`return NO_VALUES`; `CompiledName.infer` delegates to `_create_from_name`,
abstracted here as `resolve`. -/
def FilterName.inferN (V : Type) (resolve : String → Finset V) :
    FilterName → Finset V
  | .empty _ => ∅
  | .compiled n => resolve n

/-- The access-handle data the filter consults: `is_allowed_getattr(name)`
as a `(has_attribute, is_descriptor)` pair, `dir()`, `get_dir_infos()` as
the `(needs_type_completions, name -> allowed)` pair. -/
structure FilterObjData where
  is_allowed_getattr : String → Bool × Bool
  dirNames : List String
  dir_infos : List (String × (Bool × Bool))
  needs_type_completions : Bool

/-- `CompiledObjectFilter._get(name, allowed_getattr_callback, dir_callback,
check_has_attribute)`; `allow_desc` is the inference-state setting
`allow_descriptor_getattr`. -/
def filter_get_aux (allow_desc : Bool) (is_instance : Bool) (name : String)
    (allowed : Bool × Bool) (dirList : List String)
    (check_has_attribute : Bool) : List FilterName :=
  if check_has_attribute && !allowed.1 then []
  else if (allowed.2 && !allow_desc) || !allowed.1 then [FilterName.empty name]
  else if is_instance && !(dirList.contains name) then []
  else [FilterName.compiled name]

/-- `CompiledObjectFilter.get(name)`: `_get` with the handle callbacks and
`check_has_attribute=True`. -/
def CompiledObjectFilter_get (allow_desc : Bool) (o : FilterObjData)
    (is_instance : Bool) (name : String) : List FilterName :=
  filter_get_aux allow_desc is_instance name (o.is_allowed_getattr name)
    o.dirNames true

/-- `CompiledObjectFilter.values()`: one `_get` per `get_dir_infos` entry
(with the dir-infos keys as the dir callback and no has-attribute check),
then, for non-instance views with the type-completions signal, the names of
the built-in `type` object's filters (`typeNames`, external), appended
without deduplication. -/
def CompiledObjectFilter_values (allow_desc : Bool) (typeNames : List FilterName)
    (o : FilterObjData) (is_instance : Bool) : List FilterName :=
  (o.dir_infos.flatMap fun e =>
      filter_get_aux allow_desc is_instance e.1 e.2 (o.dir_infos.map Prod.fst) false)
    ++ (if !is_instance && o.needs_type_completions then typeNames else [])

/-- C5: a name the handle disallows yields the empty list from `get`; an
allowed descriptor attribute with descriptor access configured off yields
exactly one `EmptyCompiledName`, whose `infer` is always the empty
value-set. -/
theorem filter_get_spec {V : Type} (resolve : String → Finset V)
    (allow_desc : Bool) (o : FilterObjData) (is_instance : Bool)
    (name : String) :
    (∀ d, o.is_allowed_getattr name = (false, d) →
        CompiledObjectFilter_get allow_desc o is_instance name = []) ∧
      (o.is_allowed_getattr name = (true, true) → allow_desc = false →
        CompiledObjectFilter_get allow_desc o is_instance name
            = [FilterName.empty name]
          ∧ FilterName.inferN V resolve (FilterName.empty name) = ∅) := by
  constructor
  · intro d hd
    simp [CompiledObjectFilter_get, filter_get_aux, hd]
  · intro hd hdesc
    subst hdesc
    refine ⟨?_, rfl⟩
    simp [CompiledObjectFilter_get, filter_get_aux, hd]

def filterObjW : FilterObjData :=
  { is_allowed_getattr := fun n => if n = "x" then (false, false) else (true, true),
    dirNames := ["x", "y"],
    dir_infos := [],
    needs_type_completions := false }

/-- C5 witness: on a concrete handle, the disallowed name "x" yields `[]`
and the allowed descriptor name "y" yields one `EmptyCompiledName` with
empty inference. -/
theorem filter_get_spec_witness :
    CompiledObjectFilter_get false filterObjW false "x" = [] ∧
      CompiledObjectFilter_get false filterObjW false "y"
          = [FilterName.empty "y"] ∧
      FilterName.inferN Nat (fun _ => ∅) (FilterName.empty "y") = ∅ := by
  refine ⟨?_, ?_, ?_⟩
  · exact (filter_get_spec (V := Nat) (fun _ => ∅) false filterObjW false "x").1
      false (by decide)
  · exact ((filter_get_spec (V := Nat) (fun _ => ∅) false filterObjW false "y").2
      (by decide) rfl).1
  · exact ((filter_get_spec (V := Nat) (fun _ => ∅) false filterObjW false "y").2
      (by decide) rfl).2

theorem filter_get_aux_values_shape (allow_desc : Bool) (is_instance : Bool)
    (name : String) (allowed : Bool × Bool) (keys : List String)
    (hmem : name ∈ keys) :
    (filter_get_aux allow_desc is_instance name allowed keys false).map
        FilterName.string_name = [name] := by
  unfold filter_get_aux
  simp only [Bool.false_and, Bool.false_eq_true, if_false]
  by_cases h1 : (allowed.2 && !allow_desc) || !allowed.1
  · simp [h1, FilterName.string_name]
  · have hcond : ¬ (is_instance = true ∧ name ∉ keys) := fun hh => hh.2 hmem
    simp only [h1, if_false, Bool.false_eq_true]
    simp [hcond, FilterName.string_name]

theorem flatMap_get_names (allow_desc : Bool) (is_instance : Bool)
    (keys : List String) :
    ∀ l : List (String × (Bool × Bool)), (∀ e ∈ l, e.1 ∈ keys) →
      (l.flatMap fun e =>
          filter_get_aux allow_desc is_instance e.1 e.2 keys false).map
          FilterName.string_name = l.map Prod.fst := by
  intro l
  induction l with
  | nil => intro _; simp
  | cons e rest ih =>
      intro h
      have he : e.1 ∈ keys := h e (List.mem_cons_self e rest)
      have hrest : ∀ e' ∈ rest, e'.1 ∈ keys :=
        fun e' he' => h e' (List.mem_cons_of_mem e he')
      simp only [List.flatMap_cons, List.map_append, List.map_cons,
        filter_get_aux_values_shape allow_desc is_instance e.1 e.2 keys he,
        ih hrest]
      rfl

/-- C6 (amended): the portion of `values()` derived from the handle's own
directory contains no two names with the same string name (one per
`get_dir_infos` key); hence for views where no type-object names are
appended (instance views, or no type-completions signal) the whole result
is duplicate-free.  When type-object names are appended they may duplicate
directory names — see the counterexample. -/
theorem filter_values_nodup (allow_desc : Bool) (typeNames : List FilterName)
    (o : FilterObjData) (is_instance : Bool)
    (hkeys : (o.dir_infos.map Prod.fst).Nodup) :
    ((o.dir_infos.flatMap fun e =>
        filter_get_aux allow_desc is_instance e.1 e.2
          (o.dir_infos.map Prod.fst) false).map FilterName.string_name).Nodup ∧
      (is_instance = true ∨ o.needs_type_completions = false →
        ((CompiledObjectFilter_values allow_desc typeNames o is_instance).map
            FilterName.string_name).Nodup) := by
  have hdir := flatMap_get_names allow_desc is_instance
    (o.dir_infos.map Prod.fst) o.dir_infos
    (fun e he => List.mem_map_of_mem Prod.fst he)
  constructor
  · rw [hdir]
    exact hkeys
  · intro hno
    unfold CompiledObjectFilter_values
    have hif : (if !is_instance && o.needs_type_completions then typeNames else [])
        = [] := by
      rcases hno with h | h <;> simp [h]
    rw [hif, List.append_nil, hdir]
    exact hkeys

def filterObjC6 : FilterObjData :=
  { is_allowed_getattr := fun _ => (true, false),
    dirNames := ["x"],
    dir_infos := [("x", (true, false))],
    needs_type_completions := true }

/-- C6 counterexample to the claim as stated: a non-instance view whose
handle signals type-level completions; the appended built-in `type` filter
names repeat the directory name "x", so `values()` holds two names with
the same string name. -/
theorem filter_values_dup_cex :
    (filterObjC6.dir_infos.map Prod.fst).Nodup ∧
      filterObjC6.needs_type_completions = true ∧
      ((CompiledObjectFilter_values true [FilterName.compiled "x"]
          filterObjC6 false).map FilterName.string_name) = ["x", "x"] ∧
      ¬ (((CompiledObjectFilter_values true [FilterName.compiled "x"]
          filterObjC6 false).map FilterName.string_name).Nodup) := by
  refine ⟨by decide, by decide, by decide, by decide⟩

/-- C6 witness: the no-append half of the nodup theorem run on the same
concrete handle viewed as an instance. -/
theorem filter_values_nodup_witness :
    ((CompiledObjectFilter_values true [FilterName.compiled "x"]
        filterObjC6 true).map FilterName.string_name).Nodup :=
  (filter_values_nodup true [FilterName.compiled "x"] filterObjC6 true
    (by decide)).2 (Or.inl rfl)

/-!
Lazy values (`jedi/inference/lazy_value.py`).  Value sets are finite sets
of an abstract value type `V`; `P` is the type of a context's
`predefined_names` table; `Node` the host's tree nodes; `E` the type of
propagated failures.  `infer_node` is the owning context's (external)
node-level inference: it receives the `predefined_names` visible to it and
returns a result or failure together with the table it leaves behind.
-/

/-- The lazy-value hierarchy as a closed sum: `known` (`LazyKnownValue`,
data is a value), `knownSet` (`LazyKnownValues`, data is a value-set),
`unknown` (`LazyUnknownValue`), `tree` (`LazyTreeValue`: the snapshot
`dict(value.predefined_names)` taken at construction, plus the node), and
`merged` (`MergedLazyValues`, data is a list of lazy values). -/
inductive LazyValue (V P Node : Type) where
  | known (data : V)
  | knownSet (data : Finset V)
  | unknown
  | tree (snapshot : P) (node : Node)
  | merged (data : List (LazyValue V P Node))

/-- Modelled from the spec: `jedi.common.utils.monkeypatch` is not among
the analysed sources.  Per the spec it temporarily rebinds the context's
`predefined_names` to `newNames` for the duration of `body`, and restores
the previous binding on every exit path — normal return or propagated
failure alike (the failure travels in the `Except`). -/
def monkeypatch {VS P E : Type} (newNames : P) (body : P → Except E VS × P)
    (current : P) : Except E VS × P :=
  let r := body newNames
  (r.1, current)

mutual

/-- `infer()` of each lazy-value variant, threading the owning context's
`predefined_names` table as explicit state. -/
def LazyValue.infer {V P Node E : Type} [DecidableEq V]
    (infer_node : P → Node → Except E (Finset V) × P) :
    LazyValue V P Node → P → Except E (Finset V) × P
  | .known v, st => (.ok {v}, st)
  | .knownSet vs, st => (.ok vs, st)
  | .unknown, st => (.ok ∅, st)
  | .tree snapshot node, st =>
      monkeypatch snapshot (fun p => infer_node p node) st
  | .merged xs, st => LazyValue.inferList infer_node xs st

/-- `ValueSet.from_sets(l.infer() for l in data)`: infer each element in
order, propagating the first failure, and union the results. -/
def LazyValue.inferList {V P Node E : Type} [DecidableEq V]
    (infer_node : P → Node → Except E (Finset V) × P) :
    List (LazyValue V P Node) → P → Except E (Finset V) × P
  | [], st => (.ok ∅, st)
  | l :: rest, st =>
      match LazyValue.infer infer_node l st with
      | (.error e, st') => (.error e, st')
      | (.ok vs, st') =>
          match LazyValue.inferList infer_node rest st' with
          | (.error e, st'') => (.error e, st'')
          | (.ok vs', st'') => (.ok (vs ∪ vs'), st'')

end

mutual

theorem infer_preserves {V P Node E : Type} [DecidableEq V]
    (f : P → Node → Except E (Finset V) × P) :
    ∀ (l : LazyValue V P Node) (st : P), (LazyValue.infer f l st).2 = st
  | .known _, _ => rfl
  | .knownSet _, _ => rfl
  | .unknown, _ => rfl
  | .tree _ _, _ => rfl
  | .merged xs, st => inferList_preserves f xs st

theorem inferList_preserves {V P Node E : Type} [DecidableEq V]
    (f : P → Node → Except E (Finset V) × P) :
    ∀ (xs : List (LazyValue V P Node)) (st : P),
      (LazyValue.inferList f xs st).2 = st
  | [], _ => rfl
  | l :: rest, st => by
      unfold LazyValue.inferList
      rcases hA : LazyValue.infer f l st with ⟨ra, sta⟩
      have ha : sta = st := by
        have := infer_preserves f l st
        rw [hA] at this
        exact this
      subst ha
      cases ra with
      | error e => simp
      | ok vs =>
          rcases hB : LazyValue.inferList f rest sta with ⟨rb, stb⟩
          have hb : stb = sta := by
            have := inferList_preserves f rest sta
            rw [hB] at this
            exact this
          subst hb
          cases rb with
          | error e => simp [hB]
          | ok vs' => simp [hB]

end

/-- Union on fallible value-sets: the first failure propagates, mirroring
how `ValueSet.from_sets` consumes the generator of `infer()` results. -/
def exceptUnion {V E : Type} [DecidableEq V] :
    Except E (Finset V) → Except E (Finset V) → Except E (Finset V)
  | .error e, _ => .error e
  | .ok _, .error e => .error e
  | .ok a, .ok b => .ok (a ∪ b)

/-- C3: lazy-value inference is pure — `known v` infers to the singleton
of `v` leaving the ambient table untouched, `unknown` infers to the empty
value-set, and `merged [a, b]` infers to the union of what `a` and `b`
infer (with the first failure propagating), again leaving the table
untouched. -/
theorem lazy_value_pure {V P Node E : Type} [DecidableEq V]
    (f : P → Node → Except E (Finset V) × P) (v : V)
    (a b : LazyValue V P Node) (st : P) :
    LazyValue.infer f (.known v) st = (.ok {v}, st) ∧
      LazyValue.infer f (.unknown) st = (.ok (∅ : Finset V), st) ∧
      LazyValue.infer f (.merged [a, b]) st
        = (exceptUnion (LazyValue.infer f a st).1 (LazyValue.infer f b st).1,
            st) := by
  refine ⟨by simp [LazyValue.infer], by simp [LazyValue.infer], ?_⟩
  have hun : LazyValue.infer f (.merged [a, b]) st
      = LazyValue.inferList f [a, b] st := by
    simp [LazyValue.infer]
  rw [hun]
  have hpa := infer_preserves f a st
  rcases hA : LazyValue.infer f a st with ⟨ra, sta⟩
  rw [hA] at hpa
  cases hpa
  cases ra with
  | error e =>
      unfold LazyValue.inferList
      rw [hA]
      simp [exceptUnion]
  | ok va =>
      have hpb := infer_preserves f b sta
      rcases hB : LazyValue.infer f b sta with ⟨rb, stb⟩
      rw [hB] at hpb
      cases hpb
      cases rb with
      | error e =>
          unfold LazyValue.inferList
          rw [hA]
          simp only []
          unfold LazyValue.inferList
          rw [hB]
          simp [exceptUnion]
      | ok vb =>
          unfold LazyValue.inferList
          rw [hA]
          simp only []
          unfold LazyValue.inferList
          rw [hB]
          simp [exceptUnion, LazyValue.inferList]

/-- C4: after `LazyTreeValue.infer` finishes, the owning context's
`predefined_names` table equals exactly its pre-call value, whatever the
snapshot captured at construction was and whether the delegated node
inference (run on the snapshot) returned a result or a propagated
failure, which `infer` forwards unchanged. -/
theorem lazy_tree_restores {V P Node E : Type} [DecidableEq V]
    (f : P → Node → Except E (Finset V) × P) (snapshot : P) (node : Node)
    (st : P) :
    (LazyValue.infer f (.tree snapshot node) st).2 = st ∧
      (LazyValue.infer f (.tree snapshot node) st).1 = (f snapshot node).1 := by
  constructor
  · simp [LazyValue.infer, monkeypatch]
  · simp [LazyValue.infer, monkeypatch]

/-!
`CompiledObject.py__call__` and `_execute_function` (`value.py`, lines
48-65 and 230-248).  The stateful collaborators (annotation execution,
instance construction, base-class fallback, builtins lookup and execution,
external doc-based inference) are abstracted as an environment over an
abstract value type `V` and argument type `Args`.
-/

/-- Python `str.split()` with no argument: split on whitespace runs,
dropping empty pieces. -/
def pySplitAux : List Char → List Char → List String
  | [], acc => if acc = [] then [] else [String.mk acc.reverse]
  | c :: rest, acc =>
      if isPySpace c then
        if acc = [] then pySplitAux rest []
        else String.mk acc.reverse :: pySplitAux rest []
      else pySplitAux rest (c :: acc)

def pySplit (s : String) : List String :=
  pySplitAux s.toList []

/-- The handle data consulted by `py__call__`: the return annotation (an
access path or `None`), whether `getattr_paths('__call__')` succeeds,
`is_class()`, `get_api_type()` and `py__doc__()`. -/
structure CallHandle where
  ret_ann : Option (List AccessStep)
  has_call_attr : Bool
  is_class : Bool
  api_type : String
  doc : Option String

/-- External collaborators of `py__call__`: `exec_ann` models
`create_from_access_path(infer_state, ...).execute_annotation()`;
`instance_value` the `CompiledInstance` built for class objects;
`super_call` the base `Value.py__call__` fallback; `builtins_has` the
probe `builtins_module.access_handle.getattr_paths(name)`;
`execute_builtin` models `infer_state.execute(builtin_from_name(name),
params)`; `infer_return_types` the external
`docstrings.infer_return_types`. -/
structure CallEnv (V Args : Type) where
  exec_ann : List AccessStep → Finset V
  instance_value : Args → V
  super_call : Args → Finset V
  builtins_has : String → Bool
  execute_builtin : String → Args → List V
  infer_return_types : List V

/-- `CompiledObject._parse_function_doc` (the memoized method): `('', '')`
when the handle has no doc, else the module-level parser's result, its
failure propagating. -/
def parse_function_doc_method (doc : Option String) : Option (String × String) :=
  match doc with
  | none => some ("", "")
  | some d => parse_function_doc d

/-- The collaborator calls `py__call__` can make: the annotation query,
the `__call__` capability probe, the `is_class` query, the doc
consultation inside `_execute_function`, and the base-class fallback. -/
inductive CallEvent
  | ann_query
  | call_probe
  | class_query
  | doc_consult
  | super_fallback
deriving DecidableEq

/-- `CompiledObject._execute_function(params)`: yields nothing unless the
api type is `'function'`; otherwise every whitespace token of the parsed
doc's return string that resolves among the builtins is executed with the
given arguments, then the external doc-based inference is appended.
`none` models a propagated parse failure; the second component records
whether the doc was consulted. -/
def execute_function {V Args : Type} (env : CallEnv V Args) (h : CallHandle)
    (params : Args) : Option (List V) × List CallEvent :=
  if h.api_type ≠ "function" then (some [], [])
  else
    match parse_function_doc_method h.doc with
    | none => (none, [CallEvent.doc_consult])
    | some pr =>
        (some (((pySplit pr.2).flatMap fun n =>
            if env.builtins_has n then env.execute_builtin n params else [])
          ++ env.infer_return_types),
          [CallEvent.doc_consult])

/-- `CompiledObject.py__call__(arguments)`: the annotation short-circuit,
then the `__call__` capability probe (an `AttributeError` falling back to
the base `Value.py__call__`), then class instantiation or docstring-driven
function execution.  Returns the value-set (`none` for a propagated parse
failure) and the trace of collaborator calls, in order. -/
def py__call__ {V Args : Type} [DecidableEq V] (env : CallEnv V Args)
    (h : CallHandle) (args : Args) : Option (Finset V) × List CallEvent :=
  match h.ret_ann with
  | some ap => (some (env.exec_ann ap), [CallEvent.ann_query])
  | none =>
      if h.has_call_attr then
        if h.is_class then
          (some {env.instance_value args},
            [CallEvent.ann_query, CallEvent.call_probe, CallEvent.class_query])
        else
          let r := execute_function env h args
          (r.1.map List.toFinset,
            [CallEvent.ann_query, CallEvent.call_probe, CallEvent.class_query]
              ++ r.2)
      else
        (some (env.super_call args),
          [CallEvent.ann_query, CallEvent.call_probe, CallEvent.super_fallback])

/-- C2: when the handle reports a return-type annotation, `py__call__`
resolves and executes that annotation's type and returns at once: the
trace holds only the annotation query — never the call-capability probe
nor the docstring consultation — and the result does not depend on the
docstring, so when annotation and docstring disagree the annotation's
result wins. -/
theorem py_call_ann_short_circuit {V Args : Type} [DecidableEq V]
    (env : CallEnv V Args) (h : CallHandle) (args : Args)
    (ap : List AccessStep) (hann : h.ret_ann = some ap) :
    py__call__ env h args = (some (env.exec_ann ap), [CallEvent.ann_query]) ∧
      CallEvent.call_probe ∉ (py__call__ env h args).2 ∧
      CallEvent.doc_consult ∉ (py__call__ env h args).2 ∧
      ∀ d, py__call__ env { h with doc := d } args
          = (some (env.exec_ann ap), [CallEvent.ann_query]) := by
  refine ⟨?_, ?_, ?_, ?_⟩
  · simp [py__call__, hann]
  · simp [py__call__, hann]
  · simp [py__call__, hann]
  · intro d
    simp [py__call__, hann]

def callEnvW : CallEnv Nat Unit :=
  { exec_ann := fun _ => {1},
    instance_value := fun _ => 0,
    super_call := fun _ => ∅,
    builtins_has := fun n => n == "int",
    execute_builtin := fun n _ => if n = "int" then [7] else [],
    infer_return_types := [] }

def callHandleAnn : CallHandle :=
  { ret_ann := some [("int", 5)],
    has_call_attr := true,
    is_class := false,
    api_type := "function",
    doc := some "f() -> int" }

/-- C2 witness: a handle whose annotation resolves to `{1}` while its
docstring route would yield `{7}`; the annotation's result wins and only
the annotation query is traced. -/
theorem py_call_ann_short_circuit_witness :
    py__call__ callEnvW callHandleAnn ()
        = (some ({1} : Finset Nat), [CallEvent.ann_query]) ∧
      (((pySplit "int").flatMap fun n =>
          if callEnvW.builtins_has n then callEnvW.execute_builtin n () else [])
        ).toFinset = ({7} : Finset Nat) :=
  ⟨(py_call_ann_short_circuit callEnvW callHandleAnn () [("int", 5)] rfl).1,
   by decide⟩

/-- C7 (amended): for a compiled object with no return annotation, a
`__call__` capability, not a class, and api type `'function'`, whose doc
parses, `py__call__` returns the union of (a) the values of executing
each whitespace token of the parsed doc's return string that resolves
among the builtins with the given arguments, and (b) the external
doc-based return-type inference. -/
theorem py_call_function_doc_union {V Args : Type} [DecidableEq V]
    (env : CallEnv V Args) (h : CallHandle) (args : Args)
    (hann : h.ret_ann = none) (hc : h.has_call_attr = true)
    (hcls : h.is_class = false) (hapi : h.api_type = "function")
    (pr : String × String) (hdoc : parse_function_doc_method h.doc = some pr) :
    (py__call__ env h args).1
      = some (((pySplit pr.2).flatMap fun n =>
            if env.builtins_has n then env.execute_builtin n args else []
          ).toFinset
          ∪ env.infer_return_types.toFinset) := by
  simp [py__call__, hann, hc, hcls, execute_function, hapi, hdoc,
    List.toFinset_append]

def callHandleFn : CallHandle :=
  { ret_ann := none,
    has_call_attr := true,
    is_class := false,
    api_type := "function",
    doc := some "f() -> int" }

/-- C7 witness: on a concrete function handle with doc `"f() -> int"`,
the docstring union route yields `{7}`. -/
theorem py_call_function_doc_union_witness :
    (py__call__ callEnvW callHandleFn ()).1 = some ({7} : Finset Nat) := by
  have hu := py_call_function_doc_union callEnvW callHandleFn () rfl rfl rfl
    rfl ("", "int") (by decide)
  rw [hu]
  decide

def callHandleInst : CallHandle :=
  { ret_ann := none,
    has_call_attr := true,
    is_class := false,
    api_type := "instance",
    doc := some "f() -> int" }

/-- C7 counterexample to the claim as stated: a handle with no annotation,
a `__call__` capability and not a class, but api type `'instance'`: the
code returns the empty value-set while the claimed docstring-plus-external
union is `{7}`. -/
theorem py_call_doc_union_cex :
    callHandleInst.ret_ann = none ∧ callHandleInst.has_call_attr = true ∧
      callHandleInst.is_class = false ∧
      parse_function_doc_method callHandleInst.doc = some ("", "int") ∧
      (py__call__ callEnvW callHandleInst ()).1 = some (∅ : Finset Nat) ∧
      ((pySplit "int").flatMap fun n =>
          if callEnvW.builtins_has n then callEnvW.execute_builtin n () else []
        ).toFinset ∪ callEnvW.infer_return_types.toFinset
        = ({7} : Finset Nat) :=
  ⟨rfl, rfl, rfl, by decide, by decide, by decide⟩

/-!
`CompiledObject.py__mro__` (`value.py`, lines 71-76), guarded by the
`CheckAttribute` decorator probing `getattr_paths('__mro__')`.
-/

/-- The MRO handle data: whether the `__mro__` capability probe succeeds,
and `py__mro__accesses()` as the list of access paths, in handle order. -/
structure MroHandle where
  has_mro_attr : Bool
  mro_accesses : List (List AccessStep)

/-- State-threading projection of a list of access paths through
`create_from_access_path`, left to right. -/
def projectPaths (s : CacheState) :
    List (List AccessStep) → List (Option Nat) × CacheState
  | [] => ([], s)
  | ap :: rest =>
      let r := create_from_access_path s ap
      let r2 := projectPaths r.2 rest
      (r.1 :: r2.1, r2.2)

/-- `CompiledObject.py__mro__`: `none` models the `AttributeError` the
capability probe raises; on success the tuple
`(self,) + tuple(create_from_access_path(infer_state, access) for access
in access_handle.py__mro__accesses())`, built left to right through the
creation cache. -/
def py__mro__ (h : MroHandle) (selfObj : Nat) (s : CacheState) :
    Option (List (Option Nat)) × CacheState :=
  if h.has_mro_attr then
    let r := h.mro_accesses.foldl
      (fun (acc : List (Option Nat) × CacheState) ap =>
        let r := create_from_access_path acc.2 ap
        (acc.1 ++ [r.1], r.2))
      ([], s)
    (some (some selfObj :: r.1), r.2)
  else (none, s)

theorem foldl_projectPaths (aps : List (List AccessStep)) :
    ∀ (s : CacheState) (pre : List (Option Nat)),
      aps.foldl
          (fun (acc : List (Option Nat) × CacheState) ap =>
            let r := create_from_access_path acc.2 ap
            (acc.1 ++ [r.1], r.2))
          (pre, s)
        = (pre ++ (projectPaths s aps).1, (projectPaths s aps).2) := by
  induction aps with
  | nil => intro s pre; simp [projectPaths]
  | cons ap rest ih =>
      intro s pre
      simp only [List.foldl_cons, projectPaths]
      rw [ih]
      simp

theorem projectPaths_length (aps : List (List AccessStep)) :
    ∀ s : CacheState, (projectPaths s aps).1.length = aps.length := by
  induction aps with
  | nil => intro s; rfl
  | cons ap rest ih => intro s; simp [projectPaths, ih]

/-- C10: when the handle exposes `__mro__`, the query succeeds with a
non-empty tuple whose first element is the queried object itself, followed
by exactly one projected object per MRO access reported by the handle, in
the handle's order (the left-to-right state-threaded projections). -/
theorem py_mro_shape (h : MroHandle) (selfObj : Nat) (s : CacheState)
    (hattr : h.has_mro_attr = true) :
    (py__mro__ h selfObj s).1
        = some (some selfObj :: (projectPaths s h.mro_accesses).1) ∧
      ∀ l, (py__mro__ h selfObj s).1 = some l →
        l ≠ [] ∧ l.head? = some (some selfObj) ∧
          l.length = h.mro_accesses.length + 1 := by
  have hfold := foldl_projectPaths h.mro_accesses s []
  have hmain : (py__mro__ h selfObj s).1
      = some (some selfObj :: (projectPaths s h.mro_accesses).1) := by
    simp [py__mro__, hattr, hfold]
  refine ⟨hmain, ?_⟩
  intro l hl
  rw [hmain] at hl
  have hl' := Option.some.inj hl
  subst hl'
  refine ⟨by simp, by simp, ?_⟩
  simp [projectPaths_length]

def mroHandleW : MroHandle :=
  { has_mro_attr := true, mro_accesses := [[("a", 0)], [("b", 1)]] }

/-- C10 witness: a concrete handle with two MRO accesses, queried on the
empty cache. -/
theorem py_mro_shape_witness :
    (py__mro__ mroHandleW 99 emptyCache).1
      = some (some 99 :: (projectPaths emptyCache mroHandleW.mro_accesses).1) :=
  (py_mro_shape mroHandleW 99 emptyCache rfl).1
